import Mathlib

/-!
Verification of the multi-agent LLM network-emulation harness
(trace synthesizer, trace loader, process placer, replayer, VL2 topology
builder and VLB/ECMP routing control plane).

Each Python source function named in the claims is shallowly embedded as a
Lean definition below, keeping the source's names and structure.  Python
floats are modelled as exact rationals (`ℚ`), machine integers as `ℤ`/`ℕ`,
`None`-able values as `Option`, and uncaught Python exceptions as
`Except.error`.  Calls to `random.choice(xs)` are modelled by an extra
`pick : ℕ` argument selecting `xs[pick % len(xs)]`, so theorems quantify
over every possible random outcome.
-/

/-! ### Trace synthesizer: src/trace_generation/full_trace_generation.py -/

/-- Constant `MSG_SIZE = 119435` (bytes). -/
def MSG_SIZE : ℚ := 119435

/-- Constant `SECONDS_PER_TOKEN = 0.004` (4 ms in seconds). -/
def SECONDS_PER_TOKEN : ℚ := 1 / 250

/-- Embedding of `get_time_breakdown(size, generation_time)`:
`tokens = size * 1000 / 4`, `decode = tokens * SECONDS_PER_TOKEN`,
`prefill = generation_time - decode`; returns `(prefill, decode)`.
Note the source has no `max(0, ...)` clamp on `prefill`. -/
def get_time_breakdown (size generation_time : ℚ) : ℚ × ℚ :=
  let tokens := size * 1000 / 4
  let decode := tokens * SECONDS_PER_TOKEN
  let prefill := generation_time - decode
  (prefill, decode)

/-- Result record of `get_message_size_and_interval`. -/
structure MessagePattern where
  prefill_interval : ℚ
  decode_interval : ℚ
  prefill_size : ℚ
  decode_size : ℚ
deriving DecidableEq, Repr

/-- Embedding of `get_message_size_and_interval(input_size, output_size,
generation_time, nodes)`. -/
def get_message_size_and_interval (input_size output_size generation_time : ℚ)
    (nodes : ℕ) : MessagePattern :=
  let prefill_time := (get_time_breakdown output_size generation_time).1
  { prefill_interval := prefill_time / nodes
    decode_interval := SECONDS_PER_TOKEN
    prefill_size := MSG_SIZE * (input_size * 1000 / 4) * 2
    decode_size := MSG_SIZE }

/-- Python float floor division `a // b` (`math.floor(a / b)` as a float). -/
def pyFloorDiv (a b : ℚ) : ℚ := ⌊a / b⌋

/-- A logical agent-trace entry (fields `sender`, `receiver`,
`llm_gen_time`, `data_size(kb)` of the JSON entries). -/
structure AgentEntry where
  sender : ℤ
  receiver : List ℤ
  llm_gen_time : ℚ
  data_size_kb : ℚ
deriving DecidableEq, Repr

/-- The per-sender parallelism strategy drawn by
`random.choice(["pipeline", "hybrid", "tensor"])`; theorems quantify over
an arbitrary assignment `typeOf : ℤ → Strategy`. -/
inductive Strategy
  | pipeline
  | hybrid
  | tensor
deriving DecidableEq, Repr

/-- A sub-node `(sender, i)` models the Python node name
`str(sender + i/10)`; the receivers' `.0` sub-node `str(r) + ".0"` is
`(r, 0)`. -/
abbrev SubNode := ℤ × ℕ

/-- A synthesized wire-level flow event, one element of `full_trace`. -/
structure FlowEvent where
  sender : SubNode
  receiver : List SubNode
  time : ℚ
  size : ℚ
deriving DecidableEq, Repr

/-- State carried through the `for entry in trace` loop of
`process_agent_trace`: the carried `input_size`, `cumulative_time`, and
the flow events appended to `full_trace` so far. -/
structure SynthState where
  input_size : ℚ
  cumulative_time : ℚ
  events : List FlowEvent
deriving Repr

/-- Pipeline prefill loop: `for i in range(num_nodes-1): local_time +=
prefill_interval; append(node[i] -> node[i+1], cum + local_time,
prefill_size)`.  `i` is the running node index, `k` the remaining
iteration count, `loc` the running `local_time`. -/
def pipelinePrefill (s : ℤ) (cum pint ps : ℚ) : ℕ → ℕ → ℚ → ℚ × List FlowEvent
  | _, 0, loc => (loc, [])
  | i, k + 1, loc =>
    let l2 := loc + pint
    let r := pipelinePrefill s cum pint ps (i + 1) k l2
    (r.1, ⟨(s, i), [(s, i + 1)], cum + l2, ps⟩ :: r.2)

/-- One tensor all-to-all tick: `for i in range(n): for j in range(n):
if i != j: append(node[i] -> node[j], t, sz)`. -/
def tensorStepEvents (s : ℤ) (t sz : ℚ) (n : ℕ) : List FlowEvent :=
  (List.range n).flatMap fun i =>
    ((List.range n).filter (fun j => j ≠ i)).map fun j =>
      ⟨(s, i), [(s, j)], t, sz⟩

/-- One hybrid tick: for each group `(0,1) (2,3) (4,5) (6,7)` both
directed messages at time `t`. -/
def hybridStepEvents (s : ℤ) (t sz : ℚ) : List FlowEvent :=
  [0, 2, 4, 6].flatMap fun a =>
    [⟨(s, a), [(s, a + 1)], t, sz⟩, ⟨(s, a + 1), [(s, a)], t, sz⟩]

/-- Tensor/hybrid prefill loop: `for step in range(num_nodes): local_time
+= prefill_interval; <emit tick at cum + local_time>`.  `emit loc`
returns the tick's events (the emitter closes over `cum`). -/
def stepPrefill (emit : ℚ → List FlowEvent) (pint : ℚ) : ℕ → ℚ → ℚ × List FlowEvent
  | 0, loc => (loc, [])
  | k + 1, loc =>
    let l2 := loc + pint
    let r := stepPrefill emit pint k l2
    (r.1, emit l2 ++ r.2)

/-- Decode loop: `while local_time + decode_interval < llm_gen_time:
local_time += decode_interval; <emit tick>`.  The guard is tested before
the fuel so a loop that performs zero iterations never consumes fuel;
`decodeLoopF_exits` below shows the fuel supplied by `process_agent_trace`
always suffices, i.e. the loop always terminates with its guard false, so
this is exactly the Python `while` loop. -/
def decodeLoopF (gen : ℚ) (emit : ℚ → List FlowEvent) : ℕ → ℚ → ℚ × List FlowEvent
  | fuel, loc =>
    if loc + SECONDS_PER_TOKEN < gen then
      match fuel with
      | 0 => (loc, [])
      | fuel' + 1 =>
        let l2 := loc + SECONDS_PER_TOKEN
        let r := decodeLoopF gen emit fuel' l2
        (r.1, emit l2 ++ r.2)
    else (loc, [])

/-- Fuel bound for `decodeLoopF`: one more than the iteration count of the
while loop (which adds `1/250` to `loc` until `loc + 1/250 ≥ gen`). -/
def decodeFuel (gen loc : ℚ) : ℕ := (⌈(gen - loc) * 250⌉ + 1).toNat

/-- Body of the `for entry in trace` loop of `process_agent_trace`.
Entries with `sender == -1`, a `-1` receiver, `llm_gen_time == 0`, or a
zero carried `input_size` only update `input_size`; all sub-node lists
have 8 nodes for every strategy. -/
def processEntry (typeOf : ℤ → Strategy) (st : SynthState) (e : AgentEntry) :
    SynthState :=
  if e.sender = -1 ∨ (-1 : ℤ) ∈ e.receiver ∨ e.llm_gen_time = 0 ∨ st.input_size = 0 then
    { st with input_size := e.data_size_kb }
  else
    let mp := get_message_size_and_interval st.input_size e.data_size_kb e.llm_gen_time 8
    let s := e.sender
    let gen := e.llm_gen_time
    let cum := st.cumulative_time
    let se :=
      match typeOf s with
      | Strategy.tensor =>
        let emitP := fun l => tensorStepEvents s (cum + l) (pyFloorDiv mp.prefill_size 8) 8
        let emitD := fun l => tensorStepEvents s (cum + l) mp.decode_size 8
        let pre := stepPrefill emitP mp.prefill_interval 8 0
        pre.2 ++ (decodeLoopF gen emitD (decodeFuel gen pre.1) pre.1).2
      | Strategy.hybrid =>
        let emitP := fun l => hybridStepEvents s (cum + l) (pyFloorDiv mp.prefill_size 8)
        let emitD := fun l => hybridStepEvents s (cum + l) mp.decode_size
        let pre := stepPrefill emitP mp.prefill_interval 8 0
        pre.2 ++ (decodeLoopF gen emitD (decodeFuel gen pre.1) pre.1).2
      | Strategy.pipeline =>
        let emitD := fun l => (List.range 7).map fun i =>
          (⟨(s, i), [(s, i + 1)], cum + l, mp.decode_size⟩ : FlowEvent)
        let pre := pipelinePrefill s cum mp.prefill_interval mp.prefill_size 0 7 0
        pre.2 ++ (decodeLoopF gen emitD (decodeFuel gen pre.1) pre.1).2
    let finalEv : FlowEvent :=
      ⟨(s, 7), e.receiver.map (fun r => (r, 0)), cum + gen, e.data_size_kb * 1000⟩
    { input_size := e.data_size_kb
      cumulative_time := cum + gen
      events := st.events ++ se ++ [finalEv] }

/-- Embedding of `process_agent_trace`: fold the per-entry step over the
logical trace starting from `input_size = 0`, `cumulative_time = 0`.
(The process-descriptor map written as `full_trace[0]` carries no times
or sizes and is not modelled; `events` are the flow events of the output
in order.) -/
def process_agent_trace (trace : List AgentEntry) (typeOf : ℤ → Strategy) :
    SynthState :=
  trace.foldl (processEntry typeOf) ⟨0, 0, []⟩

/-- The decode time the synthesizer attributes to an entry:
`(entry data_size) * 1000 / 4 * SECONDS_PER_TOKEN`. -/
def decodeTimeOf (e : AgentEntry) : ℚ :=
  (get_time_breakdown e.data_size_kb e.llm_gen_time).2

/-- Data-model bounds from the spec for one logical entry:
`llm_gen_time ≥ 0`, `data_size_kb ≥ 0`, and the decode time fits inside
the generation time (equivalently `prefill_time ≥ 0`). -/
def WellFormedEntry (e : AgentEntry) : Prop :=
  0 ≤ e.llm_gen_time ∧ 0 ≤ e.data_size_kb ∧ decodeTimeOf e ≤ e.llm_gen_time

/-! ### Claim C2: prefill/decode time breakdown -/

/-- Claim C2, counterexample.  The spec states `prefill_time = max(0,
llm_gen_time − decode_time)`, so prefill (and prefill_interval) would
never be negative.  The source computes `prefill = generation_time -
decode` with no clamp: for `output_size = 1` KB and `llm_gen_time = 1/2`
s, decode is `1` s and the computed prefill is `-1/2 < 0`. -/
theorem get_time_breakdown_negative_prefill :
    (get_time_breakdown 1 (1 / 2)).1 < 0 ∧
    (get_message_size_and_interval 0 1 (1 / 2) 8).prefill_interval < 0 := by
  constructor <;>
    norm_num [get_time_breakdown, get_message_size_and_interval, SECONDS_PER_TOKEN]

/-- Claim C2, amended.  `decode_time = tokens_out * SECONDS_PER_TOKEN`
and `prefill_time = llm_gen_time - decode_time` with no clamping, and
`prefill_interval = prefill_time / nodes`; consequently `prefill_interval`
is negative exactly when `decode_time` exceeds `llm_gen_time`. -/
theorem get_time_breakdown_formulas (input_size output_size generation_time : ℚ)
    (nodes : ℕ) (h : 0 < nodes) :
    (get_time_breakdown output_size generation_time).2
      = output_size * 1000 / 4 * SECONDS_PER_TOKEN ∧
    (get_time_breakdown output_size generation_time).1
      = generation_time - (get_time_breakdown output_size generation_time).2 ∧
    (get_message_size_and_interval input_size output_size generation_time nodes).prefill_interval
      = (get_time_breakdown output_size generation_time).1 / nodes ∧
    ((get_message_size_and_interval input_size output_size generation_time nodes).prefill_interval < 0
      ↔ generation_time < (get_time_breakdown output_size generation_time).2) := by
  refine ⟨rfl, rfl, rfl, ?_⟩
  have hn : (0 : ℚ) < nodes := by exact_mod_cast h
  rw [get_message_size_and_interval, get_time_breakdown]
  constructor
  · intro hlt
    by_contra hge
    push_neg at hge
    have : 0 ≤ (generation_time - output_size * 1000 / 4 * SECONDS_PER_TOKEN) / (nodes : ℚ) :=
      div_nonneg (by linarith) (le_of_lt hn)
    simp only at hlt
    linarith
  · intro hlt
    have hneg : generation_time - output_size * 1000 / 4 * SECONDS_PER_TOKEN < 0 := by
      simp only at hlt ⊢; linarith
    exact div_neg_of_neg_of_pos hneg hn

/-- Witness for `get_time_breakdown_formulas` at `output_size = 1`,
`llm_gen_time = 1/2`, `nodes = 8`. -/
theorem get_time_breakdown_formulas_witness :
    (get_message_size_and_interval 0 1 (1 / 2) 8).prefill_interval < 0 :=
  (get_time_breakdown_formulas 0 1 (1 / 2) 8 (by norm_num)).2.2.2.mpr
    (by norm_num [get_time_breakdown, SECONDS_PER_TOKEN])

/-! ### Claim C6: zero carried input size -/

/-- Concrete entry for the C6 counterexample: sender `0`, receiver `[1]`,
`llm_gen_time = 1 > 0`, `data_size(kb) = 5`, replayed from the initial
state where the carried `input_size` is `0`. -/
def c6Entry : AgentEntry := ⟨0, [1], 1, 5⟩

/-- Claim C6, counterexample.  The claim says an entry whose carried
`input_size` is 0 KB (sender ≠ -1, no -1 receiver, positive gen time)
yields `prefill_size = 0` and exactly the final application message.  In
the source the loop head reads `... or input_size == 0: continue`, so such
an entry is skipped outright: the synthesized trace contains no flow
events at all, not one. -/
theorem process_agent_trace_zero_input_counterexample :
    (process_agent_trace [c6Entry] (fun _ => Strategy.pipeline)).events = [] ∧
    (process_agent_trace [c6Entry] (fun _ => Strategy.pipeline)).events.length ≠ 1 := by
  constructor <;> norm_num [process_agent_trace, processEntry, c6Entry]

/-- Claim C6, amended.  An entry processed while the carried `input_size`
is 0 is skipped entirely (even when `sender ≠ -1`, no receiver is `-1`
and `llm_gen_time > 0`): no flow events are emitted (not even the final
application message), `cumulative_time` is unchanged, and `input_size` is
replaced by the entry's `data_size(kb)`. -/
theorem processEntry_zero_input_skips (typeOf : ℤ → Strategy) (st : SynthState)
    (e : AgentEntry) (h0 : st.input_size = 0) (h1 : e.sender ≠ -1)
    (h2 : (-1 : ℤ) ∉ e.receiver) (h3 : 0 < e.llm_gen_time) :
    (processEntry typeOf st e).events = st.events ∧
    (processEntry typeOf st e).cumulative_time = st.cumulative_time ∧
    (processEntry typeOf st e).input_size = e.data_size_kb := by
  simp [processEntry, h0]

/-- Witness for `processEntry_zero_input_skips` at the concrete entry
`c6Entry` and the synthesizer's initial state. -/
theorem processEntry_zero_input_skips_witness :
    (processEntry (fun _ => Strategy.pipeline) ⟨0, 0, []⟩ c6Entry).events = [] ∧
    (processEntry (fun _ => Strategy.pipeline) ⟨0, 0, []⟩ c6Entry).cumulative_time = 0 ∧
    (processEntry (fun _ => Strategy.pipeline) ⟨0, 0, []⟩ c6Entry).input_size = 5 :=
  processEntry_zero_input_skips (fun _ => Strategy.pipeline) ⟨0, 0, []⟩ c6Entry rfl
    (by decide) (by decide) (by norm_num [c6Entry])

/-! ### Claim C1: ordering of synthesized event times -/

/-- Concrete trace for the C1 counterexample.  The first entry only seeds
the carried `input_size` (it is processed while `input_size = 0`).  The
second entry has `llm_gen_time = 1/500` s and `data_size = 1/250` KB, so
`decode_time = 1/250 > llm_gen_time` and the unclamped
`prefill_interval = -1/4000` is negative. -/
def c1Trace : List AgentEntry := [⟨0, [1], 1, 5⟩, ⟨0, [1], 1/500, 1/250⟩]

/-- The synthesized events of `c1Trace` when sender 0 draws the hybrid
strategy. -/
def c1Events : List FlowEvent :=
  (process_agent_trace c1Trace (fun _ => Strategy.hybrid)).events

set_option maxHeartbeats 1000000 in
/-- Claim C1, counterexample.  All events below belong to one logical
entry (the first trace entry is skipped as the input seed).  The first
eight sub-flows — the eight messages of the first hybrid prefill tick —
share the time `-1/4000`, so sub-flow times are not strictly increasing
within the entry; the ninth sub-flow (first message of the second tick)
occurs at `-1/2000 < -1/4000`, so the `time` fields are not non-decreasing
over the output sequence either (the negative, decreasing times come from
the unclamped negative `prefill_interval`). -/
theorem process_agent_trace_times_counterexample :
    (c1Events.map FlowEvent.time).take 9
      = [-(1/4000), -(1/4000), -(1/4000), -(1/4000), -(1/4000), -(1/4000), -(1/4000),
         -(1/4000), -(1/2000)] ∧
    (-(1/2000) : ℚ) < -(1/4000) := by
  constructor
  · norm_num [c1Events, c1Trace, process_agent_trace, processEntry,
      get_message_size_and_interval, get_time_breakdown, SECONDS_PER_TOKEN,
      stepPrefill, hybridStepEvents, decodeLoopF, pyFloorDiv]
  · norm_num

/-- The final `local_time` of the tensor/hybrid prefill loop:
`k` steps each advance it by `prefill_interval`. -/
theorem stepPrefill_loc (emit : ℚ → List FlowEvent) (pint : ℚ) :
    ∀ (k : ℕ) (loc : ℚ), (stepPrefill emit pint k loc).1 = loc + k * pint := by
  intro k
  induction k with
  | zero => intro loc; simp [stepPrefill]
  | succ k ih =>
    intro loc
    simp only [stepPrefill, ih]
    push_cast
    ring

/-- Time bounds and ordering for the tensor/hybrid prefill loop, assuming
the tick emitter stamps every event of tick `l` with time `cum + l` and
the prefill interval is non-negative. -/
theorem stepPrefill_events (cum : ℚ) (emit : ℚ → List FlowEvent) (pint : ℚ)
    (hemit : ∀ l, ∀ ev ∈ emit l, ev.time = cum + l) (hpi : 0 ≤ pint) :
    ∀ (k : ℕ) (loc : ℚ),
      ((stepPrefill emit pint k loc).2.Pairwise (fun a b => a.time ≤ b.time)) ∧
      (∀ ev ∈ (stepPrefill emit pint k loc).2,
        cum + loc ≤ ev.time ∧ ev.time ≤ cum + (loc + k * pint)) := by
  intro k
  induction k with
  | zero => intro loc; simp [stepPrefill]
  | succ k ih =>
    intro loc
    have hk : (0 : ℚ) ≤ k * pint := mul_nonneg (by positivity) hpi
    constructor
    · simp only [stepPrefill, List.pairwise_append]
      refine ⟨List.pairwise_of_forall_mem_list ?_, (ih (loc + pint)).1, ?_⟩
      · intro a ha b hb
        rw [hemit _ a ha, hemit _ b hb]
      · intro a ha b hb
        rw [hemit _ a ha]
        exact ((ih (loc + pint)).2 b hb).1
    · intro ev hev
      simp only [stepPrefill, List.mem_append] at hev
      rcases hev with hev | hev
      · rw [hemit _ ev hev]
        constructor
        · linarith
        · push_cast
          nlinarith
      · rcases (ih (loc + pint)).2 ev hev with ⟨h1, h2⟩
        constructor
        · linarith
        · push_cast at h2 ⊢
          nlinarith

/-- The final `local_time` of the pipeline prefill loop. -/
theorem pipelinePrefill_loc (s : ℤ) (cum pint ps : ℚ) :
    ∀ (k i : ℕ) (loc : ℚ), (pipelinePrefill s cum pint ps i k loc).1 = loc + k * pint := by
  intro k
  induction k with
  | zero => intro i loc; simp [pipelinePrefill]
  | succ k ih =>
    intro i loc
    simp only [pipelinePrefill, ih]
    push_cast
    ring

/-- Time bounds and ordering for the pipeline prefill loop. -/
theorem pipelinePrefill_events (s : ℤ) (cum pint ps : ℚ) (hpi : 0 ≤ pint) :
    ∀ (k i : ℕ) (loc : ℚ),
      ((pipelinePrefill s cum pint ps i k loc).2.Pairwise (fun a b => a.time ≤ b.time)) ∧
      (∀ ev ∈ (pipelinePrefill s cum pint ps i k loc).2,
        cum + loc ≤ ev.time ∧ ev.time ≤ cum + (loc + k * pint)) := by
  intro k
  induction k with
  | zero => intro i loc; simp [pipelinePrefill]
  | succ k ih =>
    intro i loc
    have hk : (0 : ℚ) ≤ k * pint := mul_nonneg (by positivity) hpi
    constructor
    · simp only [pipelinePrefill, List.pairwise_cons]
      refine ⟨?_, (ih (i + 1) (loc + pint)).1⟩
      intro b hb
      exact le_trans (by simp) ((ih (i + 1) (loc + pint)).2 b hb).1
    · intro ev hev
      simp only [pipelinePrefill, List.mem_cons] at hev
      rcases hev with rfl | hev
      · constructor
        · simp; linarith
        · simp
          nlinarith [(Nat.cast_nonneg k : (0 : ℚ) ≤ (k : ℚ))]
      · rcases (ih (i + 1) (loc + pint)).2 ev hev with ⟨h1, h2⟩
        constructor
        · linarith
        · push_cast at h2 ⊢
          nlinarith

/-- Time bounds and ordering for the decode while-loop: every emitted
event lies in `[cum + loc, cum + gen]` and events appear in
non-decreasing time order. -/
theorem decodeLoopF_events (cum gen : ℚ) (emit : ℚ → List FlowEvent)
    (hemit : ∀ l, ∀ ev ∈ emit l, ev.time = cum + l) :
    ∀ (fuel : ℕ) (loc : ℚ),
      ((decodeLoopF gen emit fuel loc).2.Pairwise (fun a b => a.time ≤ b.time)) ∧
      (∀ ev ∈ (decodeLoopF gen emit fuel loc).2,
        cum + loc ≤ ev.time ∧ ev.time ≤ cum + gen) := by
  intro fuel
  induction fuel with
  | zero =>
    intro loc
    by_cases h : loc + SECONDS_PER_TOKEN < gen <;> simp [decodeLoopF, h]
  | succ fuel ih =>
    intro loc
    by_cases h : loc + SECONDS_PER_TOKEN < gen
    · have hst : (0 : ℚ) < SECONDS_PER_TOKEN := by norm_num [SECONDS_PER_TOKEN]
      constructor
      · simp only [decodeLoopF, if_pos h, List.pairwise_append]
        refine ⟨List.pairwise_of_forall_mem_list ?_, (ih (loc + SECONDS_PER_TOKEN)).1, ?_⟩
        · intro a ha b hb
          rw [hemit _ a ha, hemit _ b hb]
        · intro a ha b hb
          rw [hemit _ a ha]
          exact ((ih (loc + SECONDS_PER_TOKEN)).2 b hb).1
      · intro ev hev
        simp only [decodeLoopF, if_pos h, List.mem_append] at hev
        rcases hev with hev | hev
        · rw [hemit _ ev hev]
          constructor
          · linarith
          · linarith
        · rcases (ih (loc + SECONDS_PER_TOKEN)).2 ev hev with ⟨h1, h2⟩
          constructor
          · linarith
          · exact h2
    · simp [decodeLoopF, h]

/-- The fuel `decodeFuel gen loc` supplied to `decodeLoopF` always
suffices: on return the while-guard is false, so the fuelled loop
computes exactly the Python `while` loop. -/
theorem decodeLoopF_exits (gen : ℚ) (emit : ℚ → List FlowEvent) :
    ∀ (fuel : ℕ) (loc : ℚ), ⌈(gen - loc) * 250⌉ < fuel →
      ¬ ((decodeLoopF gen emit fuel loc).1 + SECONDS_PER_TOKEN < gen) := by
  intro fuel
  induction fuel with
  | zero =>
    intro loc hf
    have h1 : (gen - loc) * 250 ≤ (0 : ℚ) := by
      calc (gen - loc) * 250 ≤ (⌈(gen - loc) * 250⌉ : ℚ) := Int.le_ceil _
        _ ≤ 0 := by exact_mod_cast le_of_lt (by exact_mod_cast hf)
    have hguard : ¬ (loc + SECONDS_PER_TOKEN < gen) := by
      rw [SECONDS_PER_TOKEN]
      intro hc
      nlinarith
    simp [decodeLoopF, hguard]
  | succ fuel ih =>
    intro loc hf
    by_cases h : loc + SECONDS_PER_TOKEN < gen
    · have hrec : ⌈(gen - (loc + SECONDS_PER_TOKEN)) * 250⌉ < fuel := by
        have : (gen - (loc + SECONDS_PER_TOKEN)) * 250 = (gen - loc) * 250 - 1 := by
          rw [SECONDS_PER_TOKEN]; ring
        rw [this, Int.ceil_sub_one]
        omega
        
      have := ih (loc + SECONDS_PER_TOKEN) hrec
      simpa [decodeLoopF, if_pos h] using this
    · simp [decodeLoopF, h]


/-- Every event of a tensor tick carries the tick's time. -/
theorem tensorStepEvents_time (s : ℤ) (t sz : ℚ) (n : ℕ) :
    ∀ ev ∈ tensorStepEvents s t sz n, ev.time = t := by
  intro ev hev
  simp only [tensorStepEvents, List.mem_flatMap, List.mem_map, List.mem_filter] at hev
  obtain ⟨i, _, j, _, rfl⟩ := hev
  rfl

/-- Every event of a hybrid tick carries the tick's time. -/
theorem hybridStepEvents_time (s : ℤ) (t sz : ℚ) :
    ∀ ev ∈ hybridStepEvents s t sz, ev.time = t := by
  intro ev hev
  simp only [hybridStepEvents, List.mem_flatMap, List.mem_cons, List.mem_singleton] at hev
  obtain ⟨a, _, h⟩ := hev
  rcases h with rfl | rfl | h
  · rfl
  · rfl
  · cases h

/-- Assembling one entry's block (prefill events, decode events, final
application message): it is non-decreasing in time and bounded by
`[cum, cum + gen]`. -/
theorem synth_block_spec (cum gen pi' : ℚ) (k : ℕ)
    (hk : (k : ℚ) * pi' ≤ gen) (hpi : 0 ≤ pi') (hg : 0 ≤ gen)
    (preEvs decEvs : List FlowEvent) (fin : FlowEvent)
    (hpre_pw : preEvs.Pairwise (fun a b => a.time ≤ b.time))
    (hpre_bd : ∀ ev ∈ preEvs, cum ≤ ev.time ∧ ev.time ≤ cum + (k : ℚ) * pi')
    (hdec_pw : decEvs.Pairwise (fun a b => a.time ≤ b.time))
    (hdec_bd : ∀ ev ∈ decEvs, cum + (k : ℚ) * pi' ≤ ev.time ∧ ev.time ≤ cum + gen)
    (hfin : fin.time = cum + gen) :
    ((preEvs ++ decEvs) ++ [fin]).Pairwise (fun a b => a.time ≤ b.time) ∧
    ∀ ev ∈ (preEvs ++ decEvs) ++ [fin], cum ≤ ev.time ∧ ev.time ≤ cum + gen := by
  constructor
  · rw [List.pairwise_append]
    refine ⟨?_, by simp, ?_⟩
    · rw [List.pairwise_append]
      refine ⟨hpre_pw, hdec_pw, ?_⟩
      intro a ha b hb
      exact le_trans (hpre_bd a ha).2 (hdec_bd b hb).1
    · intro a ha b hb
      simp only [List.mem_singleton] at hb
      subst hb
      rw [hfin]
      simp only [List.mem_append] at ha
      rcases ha with ha | ha
      · exact le_trans (hpre_bd a ha).2 (by linarith)
      · exact (hdec_bd a ha).2
  · intro ev hev
    simp only [List.mem_append, List.mem_singleton] at hev
    rcases hev with (hev | hev) | rfl
    · rcases hpre_bd ev hev with ⟨h1, h2⟩
      exact ⟨h1, by linarith⟩
    · rcases hdec_bd ev hev with ⟨h1, h2⟩
      constructor
      · have : (0 : ℚ) ≤ (k : ℚ) * pi' := mul_nonneg (by positivity) hpi
        linarith
      · exact h2
    · rw [hfin]
      exact ⟨by linarith, le_refl _⟩

/-- Per-entry specification: an entry never decreases `cumulative_time`,
and (under the data-model bounds) appends a block of events that is
internally non-decreasing in time and lies between the old and the new
`cumulative_time`. -/
theorem processEntry_spec (typeOf : ℤ → Strategy) (st : SynthState) (e : AgentEntry)
    (hw : WellFormedEntry e) :
    st.cumulative_time ≤ (processEntry typeOf st e).cumulative_time ∧
    ∃ newEvs, (processEntry typeOf st e).events = st.events ++ newEvs ∧
      newEvs.Pairwise (fun a b => a.time ≤ b.time) ∧
      ∀ ev ∈ newEvs, st.cumulative_time ≤ ev.time ∧
        ev.time ≤ (processEntry typeOf st e).cumulative_time := by
  obtain ⟨hg, hs, hd⟩ := hw
  by_cases hskip : e.sender = -1 ∨ (-1 : ℤ) ∈ e.receiver ∨ e.llm_gen_time = 0 ∨ st.input_size = 0
  · rw [processEntry, if_pos hskip]
    exact ⟨le_refl _, [], by simp, by simp, by simp⟩
  · have hdec0 : 0 ≤ (get_time_breakdown e.data_size_kb e.llm_gen_time).2 := by
      rw [get_time_breakdown]
      simp only
      rw [SECONDS_PER_TOKEN]
      positivity
    have hd' : (get_time_breakdown e.data_size_kb e.llm_gen_time).2 ≤ e.llm_gen_time := hd
    have hpre0 : 0 ≤ (get_time_breakdown e.data_size_kb e.llm_gen_time).1 := by
      rw [get_time_breakdown] at hd' ⊢
      simp only at hd' ⊢
      linarith
    have hpre_le : (get_time_breakdown e.data_size_kb e.llm_gen_time).1 ≤ e.llm_gen_time := by
      rw [get_time_breakdown] at hdec0 ⊢
      simp only at hdec0 ⊢
      linarith
    set mp := get_message_size_and_interval st.input_size e.data_size_kb e.llm_gen_time 8 with hmp
    have hpi0 : 0 ≤ mp.prefill_interval := by
      rw [hmp, get_message_size_and_interval]
      simp only
      positivity
    have hpi8 : (8 : ℚ) * mp.prefill_interval ≤ e.llm_gen_time := by
      rw [hmp, get_message_size_and_interval]
      simp only
      rw [div_eq_mul_inv]
      push_cast
      nlinarith
    have hcum : st.cumulative_time ≤ st.cumulative_time + e.llm_gen_time := by linarith
    rw [processEntry, if_neg hskip]
    simp only
    rw [← hmp]
    refine ⟨hcum, ?_⟩
    set cum := st.cumulative_time
    set gen := e.llm_gen_time
    cases htype : typeOf e.sender with
    | tensor =>
      set emitP := fun l => tensorStepEvents e.sender (cum + l) (pyFloorDiv mp.prefill_size 8) 8 with hemitP
      set emitD := fun l => tensorStepEvents e.sender (cum + l) mp.decode_size 8 with hemitD
      have hP : ∀ l, ∀ ev ∈ emitP l, FlowEvent.time ev = cum + l := by
        intro l ev hev; exact tensorStepEvents_time _ _ _ _ ev hev
      have hD : ∀ l, ∀ ev ∈ emitD l, FlowEvent.time ev = cum + l := by
        intro l ev hev; exact tensorStepEvents_time _ _ _ _ ev hev
      have hloc : (stepPrefill emitP mp.prefill_interval 8 0).1 = 0 + 8 * mp.prefill_interval :=
        stepPrefill_loc emitP mp.prefill_interval 8 0
      have hpre := stepPrefill_events cum emitP mp.prefill_interval hP hpi0 8 0
      have hdec := decodeLoopF_events cum gen emitD hD
        (decodeFuel gen (stepPrefill emitP mp.prefill_interval 8 0).1)
        (stepPrefill emitP mp.prefill_interval 8 0).1
      have hblock := synth_block_spec cum gen mp.prefill_interval 8
        (by push_cast; linarith) hpi0 hg _ _
        (⟨(e.sender, 7), e.receiver.map (fun r => (r, 0)), cum + gen, e.data_size_kb * 1000⟩ : FlowEvent)
        hpre.1
        (by
          intro ev hev
          have h' := hpre.2 ev hev
          constructor
          · linarith [h'.1]
          · have h2 := h'.2
            push_cast at h2 ⊢
            linarith)
        hdec.1
        (by
          intro ev hev
          have h' := hdec.2 ev hev
          rw [hloc] at h'
          constructor
          · push_cast at h' ⊢
            linarith [h'.1]
          · exact h'.2)
        rfl
      exact ⟨_, List.append_assoc _ _ _, hblock.1, hblock.2⟩
    | hybrid =>
      set emitP := fun l => hybridStepEvents e.sender (cum + l) (pyFloorDiv mp.prefill_size 8) with hemitP
      set emitD := fun l => hybridStepEvents e.sender (cum + l) mp.decode_size with hemitD
      have hP : ∀ l, ∀ ev ∈ emitP l, FlowEvent.time ev = cum + l := by
        intro l ev hev; exact hybridStepEvents_time _ _ _ ev hev
      have hD : ∀ l, ∀ ev ∈ emitD l, FlowEvent.time ev = cum + l := by
        intro l ev hev; exact hybridStepEvents_time _ _ _ ev hev
      have hloc : (stepPrefill emitP mp.prefill_interval 8 0).1 = 0 + 8 * mp.prefill_interval :=
        stepPrefill_loc emitP mp.prefill_interval 8 0
      have hpre := stepPrefill_events cum emitP mp.prefill_interval hP hpi0 8 0
      have hdec := decodeLoopF_events cum gen emitD hD
        (decodeFuel gen (stepPrefill emitP mp.prefill_interval 8 0).1)
        (stepPrefill emitP mp.prefill_interval 8 0).1
      have hblock := synth_block_spec cum gen mp.prefill_interval 8
        (by push_cast; linarith) hpi0 hg _ _
        (⟨(e.sender, 7), e.receiver.map (fun r => (r, 0)), cum + gen, e.data_size_kb * 1000⟩ : FlowEvent)
        hpre.1
        (by
          intro ev hev
          have h' := hpre.2 ev hev
          constructor
          · linarith [h'.1]
          · have h2 := h'.2
            push_cast at h2 ⊢
            linarith)
        hdec.1
        (by
          intro ev hev
          have h' := hdec.2 ev hev
          rw [hloc] at h'
          constructor
          · push_cast at h' ⊢
            linarith [h'.1]
          · exact h'.2)
        rfl
      exact ⟨_, List.append_assoc _ _ _, hblock.1, hblock.2⟩
    | pipeline =>
      set emitD := fun l => (List.range 7).map fun i =>
        (⟨(e.sender, i), [(e.sender, i + 1)], cum + l, mp.decode_size⟩ : FlowEvent) with hemitD
      have hD : ∀ l, ∀ ev ∈ emitD l, FlowEvent.time ev = cum + l := by
        intro l ev hev
        simp only [hemitD, List.mem_map] at hev
        obtain ⟨i, _, rfl⟩ := hev
        rfl
      have hloc : (pipelinePrefill e.sender cum mp.prefill_interval mp.prefill_size 0 7 0).1
          = 0 + 7 * mp.prefill_interval :=
        pipelinePrefill_loc e.sender cum mp.prefill_interval mp.prefill_size 7 0 0
      have hpre := pipelinePrefill_events e.sender cum mp.prefill_interval mp.prefill_size hpi0 7 0 0
      have hdec := decodeLoopF_events cum gen emitD hD
        (decodeFuel gen (pipelinePrefill e.sender cum mp.prefill_interval mp.prefill_size 0 7 0).1)
        (pipelinePrefill e.sender cum mp.prefill_interval mp.prefill_size 0 7 0).1
      have hpi7 : (7 : ℚ) * mp.prefill_interval ≤ gen := by linarith
      have hblock := synth_block_spec cum gen mp.prefill_interval 7
        (by push_cast; linarith) hpi0 hg _ _
        (⟨(e.sender, 7), e.receiver.map (fun r => (r, 0)), cum + gen, e.data_size_kb * 1000⟩ : FlowEvent)
        hpre.1
        (by
          intro ev hev
          have h' := hpre.2 ev hev
          constructor
          · linarith [h'.1]
          · have h2 := h'.2
            push_cast at h2 ⊢
            linarith)
        hdec.1
        (by
          intro ev hev
          have h' := hdec.2 ev hev
          rw [hloc] at h'
          constructor
          · push_cast at h' ⊢
            linarith [h'.1]
          · exact h'.2)
        rfl
      exact ⟨_, List.append_assoc _ _ _, hblock.1, hblock.2⟩

/-- Fold invariant for `process_agent_trace`: starting from a state whose
events are time-ordered and below its `cumulative_time`, processing any
well-formed suffix of the trace preserves both, and `cumulative_time`
never decreases. -/
theorem foldl_processEntry_spec (typeOf : ℤ → Strategy) :
    ∀ (trace : List AgentEntry), (∀ e ∈ trace, WellFormedEntry e) →
      ∀ st : SynthState, st.events.Pairwise (fun a b => a.time ≤ b.time) →
        (∀ ev ∈ st.events, ev.time ≤ st.cumulative_time) →
        ((trace.foldl (processEntry typeOf) st).events.Pairwise (fun a b => a.time ≤ b.time)) ∧
        (∀ ev ∈ (trace.foldl (processEntry typeOf) st).events,
          ev.time ≤ (trace.foldl (processEntry typeOf) st).cumulative_time) ∧
        st.cumulative_time ≤ (trace.foldl (processEntry typeOf) st).cumulative_time := by
  intro trace
  induction trace with
  | nil => intro _ st h1 h2; exact ⟨h1, h2, le_refl _⟩
  | cons e tr ih =>
    intro hw st h1 h2
    have hwe : WellFormedEntry e := hw e (by simp)
    have hwtr : ∀ e' ∈ tr, WellFormedEntry e' := fun e' he' => hw e' (by simp [he'])
    obtain ⟨hcum, newEvs, hevents, hpw, hbd⟩ := processEntry_spec typeOf st e hwe
    have h1' : (processEntry typeOf st e).events.Pairwise (fun a b => a.time ≤ b.time) := by
      rw [hevents, List.pairwise_append]
      refine ⟨h1, hpw, ?_⟩
      intro a ha b hb
      exact le_trans (h2 a ha) (hbd b hb).1
    have h2' : ∀ ev ∈ (processEntry typeOf st e).events,
        ev.time ≤ (processEntry typeOf st e).cumulative_time := by
      intro ev hev
      rw [hevents, List.mem_append] at hev
      rcases hev with hev | hev
      · exact le_trans (h2 ev hev) hcum
      · exact (hbd ev hev).2
    have := ih hwtr (processEntry typeOf st e) h1' h2'
    exact ⟨by simpa using this.1, by simpa using this.2.1,
      le_trans hcum (by simpa using this.2.2)⟩

/-- The head of `List.scanl` is its initial accumulator. -/
theorem scanl_head (f : SynthState → AgentEntry → SynthState) (b : SynthState)
    (l : List AgentEntry) : (List.scanl f b l).head? = some b := by
  cases l <;> simp [List.scanl]

/-- The running `cumulative_time` values along the fold never decrease. -/
theorem scanl_cum_chain (typeOf : ℤ → Strategy) :
    ∀ (trace : List AgentEntry), (∀ e ∈ trace, WellFormedEntry e) →
      ∀ st : SynthState,
        (trace.scanl (processEntry typeOf) st).Chain'
          (fun a b => a.cumulative_time ≤ b.cumulative_time) := by
  intro trace
  induction trace with
  | nil => intro _ st; simp
  | cons e tr ih =>
    intro hw st
    rw [List.scanl_cons]
    have hwe : WellFormedEntry e := hw e (by simp)
    have hwtr : ∀ e' ∈ tr, WellFormedEntry e' := fun e' he' => hw e' (by simp [he'])
    rw [List.cons_append, List.nil_append, List.chain'_cons']
    refine ⟨?_, ih hwtr _⟩
    intro y hy
    rw [scanl_head] at hy
    cases hy
    exact (processEntry_spec typeOf st e hwe).1

/-- Claim C1, amended.  Under the spec's data-model bounds for every
entry (`llm_gen_time ≥ 0`, `data_size ≥ 0`, and `decode_time ≤
llm_gen_time`, i.e. a non-negative prefill): the `time` fields of the
synthesized trace are non-decreasing over the whole output sequence
(within one logical entry they are non-decreasing but in general not
strictly increasing, since all messages of one all-to-all step or decode
tick share a time — see the counterexample), and `cumulative_time` never
decreases across entries. -/
theorem process_agent_trace_times_monotone (trace : List AgentEntry)
    (typeOf : ℤ → Strategy) (hw : ∀ e ∈ trace, WellFormedEntry e) :
    ((process_agent_trace trace typeOf).events.Pairwise (fun a b => a.time ≤ b.time)) ∧
    (trace.scanl (processEntry typeOf) ⟨0, 0, []⟩).Chain'
      (fun a b => a.cumulative_time ≤ b.cumulative_time) := by
  constructor
  · exact (foldl_processEntry_spec typeOf trace hw ⟨0, 0, []⟩ (by simp) (by simp)).1
  · exact scanl_cum_chain typeOf trace hw ⟨0, 0, []⟩

/-- Witness for `process_agent_trace_times_monotone` on a concrete
two-entry trace satisfying the data-model bounds. -/
theorem process_agent_trace_times_monotone_witness :
    ((process_agent_trace [⟨0, [1], 1, (1:ℚ)/2⟩, ⟨0, [1], 2, 1⟩] (fun _ => Strategy.pipeline)).events.Pairwise
      (fun a b => a.time ≤ b.time)) ∧
    (([⟨0, [1], 1, (1:ℚ)/2⟩, ⟨0, [1], 2, 1⟩] : List AgentEntry).scanl
      (processEntry (fun _ => Strategy.pipeline)) ⟨0, 0, []⟩).Chain'
      (fun a b => a.cumulative_time ≤ b.cumulative_time) := by
  apply process_agent_trace_times_monotone
  intro e he
  simp only [List.mem_cons, List.not_mem_nil, or_false] at he
  rcases he with rfl | rfl <;>
    exact ⟨by norm_num, by norm_num,
      by norm_num [decodeTimeOf, get_time_breakdown, SECONDS_PER_TOKEN]⟩

/-! ### Trace loader and merger: src/network/multi_llm.py, load_and_merge_traces -/

/-- A raw trace event as read from a JSON file: each field models the
presence or absence of the corresponding dict key (`event.get(...)` /
`'key' in event`). -/
structure RawEvent where
  sender : Option String
  receiver : Option (List String)
  time : Option ℚ
deriving DecidableEq

/-- One element of a parsed trace-file array, classified the way
`load_and_merge_traces` probes it: a process-config map (a dict with key
`'0'`, carrying `group id -> [(sub-node name, gpu cost), ...]`), an
event-like dict (has key `'sender'`), or anything else. -/
inductive JItem where
  | config (groups : List (ℕ × List (String × ℕ)))
  | event (e : RawEvent)
  | malformed
deriving DecidableEq

/-- Namespacing of one trailing element: the `trace_prefix` is prepended
to `sender` and to every receiver when those keys are present; other
elements are appended unchanged. -/
def namespaceEvent (pfx : String) : JItem → JItem
  | JItem.event e => JItem.event
      { e with
        sender := e.sender.map (fun s => pfx ++ s)
        receiver := e.receiver.map (fun rs => rs.map (fun r => pfx ++ r)) }
  | it => it

/-- Collect the namespaced process names of a config map, iterating the
groups sorted by integer key (`sorted(process_config.keys(), key=int)`). -/
def configProcesses (pfx : String) (groups : List (ℕ × List (String × ℕ))) :
    List String :=
  (groups.mergeSort (fun a b => a.1 ≤ b.1)).flatMap
    (fun g => g.2.map (fun pe => pfx ++ pe.1))

/-- Processing of one trace file body (the `try` of the source only
guards `open`/`json.load`, which are not modelled here; the classification
of `data[0]` is not guarded).  Results: `.ok (some ...)` when the first
element is a config map; `.ok none` when it is an event-like dict (the
source prints an error and `continue`s); `.error` when the first element
is anything else or the array is empty — the source then raises an
uncaught `AttributeError` (`process_config` stays `None`) or `IndexError`
(`data[0]` on an empty list). -/
def loadFile (idx : ℕ) (data : List JItem) :
    Except String (Option (List String × List JItem)) :=
  match data with
  | [] => Except.error "IndexError: list index out of range"
  | first :: rest =>
    let pfx := toString idx ++ "-"
    match first with
    | JItem.config groups =>
        Except.ok (some (configProcesses pfx groups, rest.map (namespaceEvent pfx)))
    | JItem.event _ => Except.ok none
    | JItem.malformed =>
        Except.error "AttributeError: NoneType object has no attribute keys"

/-- The `for trace_idx, filepath in enumerate(trace_files)` loop:
accumulates `all_logical_processes` and `merged_events`; a skipped file
still consumes its index; an uncaught exception aborts the whole call. -/
def loadAux (idx : ℕ) (procs : List String) (events : List JItem) :
    List (List JItem) → Except String (List String × List JItem)
  | [] => Except.ok (procs, events)
  | f :: fs =>
    match loadFile idx f with
    | Except.error msg => Except.error msg
    | Except.ok none => loadAux (idx + 1) procs events fs
    | Except.ok (some (ps, evs)) => loadAux (idx + 1) (procs ++ ps) (events ++ evs) fs

/-- The global sort key: `lambda x: x.get('time', 0.0)` — the `time`
field with default `0.0` (an element without a `time` key, config maps
included, gets key `0`). -/
def timeKey : JItem → ℚ
  | JItem.event e => e.time.getD 0
  | _ => 0

/-- The final `merged_events.sort(key=...)`: Python's `list.sort` is a
stable sort by the key, modelled by `List.mergeSort` (any two stable
sorts for the same preorder agree). -/
def sortEvents (l : List JItem) : List JItem :=
  l.mergeSort (fun a b => timeKey a ≤ timeKey b)

/-- Embedding of `load_and_merge_traces` over the parsed file bodies. -/
def load_and_merge_traces (files : List (List JItem)) :
    Except String (List String × List JItem) :=
  match loadAux 0 [] [] files with
  | Except.error msg => Except.error msg
  | Except.ok (procs, events) => Except.ok (procs, sortEvents events)

/-! ### Claim C9: loader error handling -/

/-- Claim C9, counterexample.  A file whose first element is neither a
process map nor an event-like dict (here: a dict with neither a `'0'` nor
a `'sender'` key) does not cause a report-skip-continue: `process_config`
stays `None` and the subsequent `.keys()` access raises an uncaught
`AttributeError`, aborting `load_and_merge_traces` — the following
well-formed file is never processed. -/
theorem load_and_merge_traces_malformed_aborts :
    load_and_merge_traces [[JItem.malformed], [JItem.config [(0, [("0.0", 1)])]]]
      = Except.error "AttributeError: NoneType object has no attribute keys" := rfl

/-- Claim C9, amended.  A file whose first element is an event-like dict
(has `'sender'` but no config map) is reported and skipped and the
remaining files are processed (with the file index still advancing); but
a file whose first element is neither (or an empty file) raises an
uncaught exception that escapes `load_and_merge_traces`, aborting the
remaining files. -/
theorem loadAux_skip_and_abort (idx : ℕ) (procs : List String)
    (events : List JItem) (e : RawEvent) (tail tail' : List JItem)
    (fs : List (List JItem)) :
    loadAux idx procs events ((JItem.event e :: tail) :: fs)
      = loadAux (idx + 1) procs events fs ∧
    loadAux idx procs events ((JItem.malformed :: tail') :: fs)
      = Except.error "AttributeError: NoneType object has no attribute keys" ∧
    loadAux idx procs events ([] :: fs)
      = Except.error "IndexError: list index out of range" := ⟨rfl, rfl, rfl⟩

/-! ### Claim C10: merged-event sort -/

/-- Claim C10.  The global sort orders the merged events by
`x.get('time', 0.0)`: the output is non-decreasing in that key, an
element without a `time` field gets key `0` and therefore never appears
after an element with positive key, and elements with equal keys keep
their pre-sort (per-file append) order — the sort is stable. -/
theorem sortEvents_sorted_stable (l : List JItem) :
    ((sortEvents l).Pairwise (fun a b => timeKey a ≤ timeKey b)) ∧
    (∀ e : RawEvent, e.time = none → timeKey (JItem.event e) = 0) ∧
    (∀ a b : JItem, List.Sublist [b, a] (sortEvents l) → timeKey a = 0 → 0 < timeKey b → False) ∧
    (∀ a b : JItem, List.Sublist [a, b] l → timeKey a = timeKey b →
      List.Sublist [a, b] (sortEvents l)) := by
  have htrans : ∀ a b c : JItem,
      (decide (timeKey a ≤ timeKey b)) = true → (decide (timeKey b ≤ timeKey c)) = true →
      (decide (timeKey a ≤ timeKey c)) = true := by
    intro a b c h1 h2
    simp only [decide_eq_true_eq] at h1 h2 ⊢
    exact le_trans h1 h2
  have htotal : ∀ a b : JItem,
      ((decide (timeKey a ≤ timeKey b)) || (decide (timeKey b ≤ timeKey a))) = true := by
    intro a b
    simp only [Bool.or_eq_true, decide_eq_true_eq]
    exact le_total _ _
  have hsorted := @List.sorted_mergeSort JItem (fun a b => decide (timeKey a ≤ timeKey b))
    htrans htotal l
  have hpw : (sortEvents l).Pairwise (fun a b => timeKey a ≤ timeKey b) := by
    rw [sortEvents]
    exact hsorted.imp (fun h => by simpa using h)
  refine ⟨hpw, ?_, ?_, ?_⟩
  · intro e he
    simp [timeKey, he]
  · intro a b hsub ha hb
    have := List.Pairwise.sublist hsub hpw
    rw [List.pairwise_cons] at this
    have hba := this.1 a (by simp)
    rw [ha] at hba
    exact absurd (lt_of_lt_of_le hb hba) (lt_irrefl 0)
  · intro a b hsub heq
    rw [sortEvents]
    apply List.sublist_mergeSort htrans htotal
    · rw [List.pairwise_cons]
      refine ⟨?_, by simp⟩
      intro a' ha'
      simp only [List.mem_singleton] at ha'
      subst ha'
      simp [heq]
    · exact hsub

/-- Witness for `sortEvents_sorted_stable`: two equal-key events (both
lacking a `time` field) keep their append order through the sort. -/
theorem sortEvents_sorted_stable_witness :
    List.Sublist [JItem.event ⟨some "a", none, none⟩, JItem.event ⟨some "b", none, none⟩]
      (sortEvents [JItem.event ⟨some "a", none, none⟩, JItem.event ⟨some "b", none, none⟩]) :=
  (sortEvents_sorted_stable
      [JItem.event ⟨some "a", none, none⟩, JItem.event ⟨some "b", none, none⟩]).2.2.2
    (JItem.event ⟨some "a", none, none⟩) (JItem.event ⟨some "b", none, none⟩)
    (List.Sublist.refl _) rfl

/-! ### Process placer: src/network/multi_llm.py, map_processes_to_hosts -/

/-- The group key of a namespaced process name:
`parts = proc_name.rsplit('.', 1); group_id = parts[0] if len(parts) > 1
else proc_name` — everything before the last dot, or the whole name when
there is no dot. -/
def groupKey (p : String) : String :=
  if '.' ∈ p.toList then
    String.mk ((p.toList.reverse.drop (p.toList.reverse.indexOf '.' + 1)).reverse)
  else p

/-- The physical host pool: hosts are modelled by their indices in
`net.hosts`; `active_count = int(math.ceil(total_physical *
percent_usage))`, bumped to 1 when zero, and `physical_pool =
all_hosts[:active_count]`. -/
def physicalPool (total : ℕ) (percent : ℚ) : List ℕ :=
  let active_count : ℤ := ⌈(total : ℚ) * percent⌉
  let active_count := if active_count = 0 then 1 else active_count
  (List.range total).take active_count.toNat

/-- The per-group member lists in iteration order: groups keyed by
`groupKey`, keys sorted (`for group_id in sorted(groups.keys())`), each
group holding its processes in load order (the `defaultdict(list)`
append order). -/
def groupsOf (procs : List String) : List (List String) :=
  (((procs.map groupKey).dedup).mergeSort (fun a b => a ≤ b)).map
    (fun g => procs.filter (fun p => groupKey p == g))

/-- The strided assignment: for each group, the `i`-th member goes to
`physical_pool[i % len(physical_pool)]`; the dict built by the loop is an
association list (later writes shadow earlier ones). -/
def buildMapping (pool : List ℕ) (procs : List String) : List (String × ℕ) :=
  (groupsOf procs).flatMap
    (fun ms => ms.enum.map (fun ip => (ip.2, pool.getD (ip.1 % pool.length) 0)))

/-- Embedding of `map_processes_to_hosts` (lookup in the built dict;
looking up the reversed association list gives Python's
last-write-wins dict semantics). -/
def map_processes_to_hosts (total : ℕ) (percent : ℚ) (procs : List String)
    (p : String) : Option ℕ :=
  ((buildMapping (physicalPool total percent) procs).reverse).lookup p

/-- Association-list lookup with distinct keys returns the stored value. -/
theorem lookup_of_nodup_keys (l : List (String × ℕ)) (p : String) (v : ℕ)
    (hnd : (l.map Prod.fst).Nodup) (hmem : (p, v) ∈ l) :
    l.lookup p = some v := by
  induction l with
  | nil => cases hmem
  | cons a t ih =>
    rw [List.map_cons, List.nodup_cons] at hnd
    rcases List.mem_cons.mp hmem with rfl | hmem'
    · simp [List.lookup]
    · have hne : a.1 ≠ p := by
        intro hcontra
        exact hnd.1 (hcontra ▸ (List.mem_map.mpr ⟨(p, v), hmem', rfl⟩))
      have : (p == a.1) = false := by
        simp only [beq_eq_false_iff_ne, ne_eq]
        exact fun hc => hne hc.symm
      rw [List.lookup, this]
      exact ih hnd.2 hmem'

/-- The keys of the built mapping are exactly the group members in
group order. -/
theorem buildMapping_keys (pool : List ℕ) (procs : List String) :
    (buildMapping pool procs).map Prod.fst = (groupsOf procs).flatten := by
  rw [buildMapping, List.map_flatMap]
  have : ∀ ms : List String,
      List.map Prod.fst (ms.enum.map (fun ip => (ip.2, pool.getD (ip.1 % pool.length) 0)))
        = ms := by
    intro ms
    rw [List.map_map]
    have : (Prod.fst ∘ fun ip : ℕ × String => (ip.2, pool.getD (ip.1 % pool.length) 0))
        = Prod.snd := rfl
    rw [this, List.enum_map_snd]
  simp only [this]
  rw [List.flatMap_def, List.map_id']

/-- With distinct process names the keys of the built mapping are
distinct. -/
theorem buildMapping_keys_nodup (pool : List ℕ) (procs : List String)
    (hnd : procs.Nodup) :
    ((buildMapping pool procs).map Prod.fst).Nodup := by
  rw [buildMapping_keys, List.nodup_flatten]
  constructor
  · intro l hl
    rw [groupsOf, List.mem_map] at hl
    obtain ⟨g, _, rfl⟩ := hl
    exact hnd.filter _
  · rw [groupsOf]
    rw [List.pairwise_map]
    have hkeys : (((procs.map groupKey).dedup).mergeSort (fun a b => a ≤ b)).Nodup :=
      ((List.mergeSort_perm _ _).nodup_iff).mpr (List.nodup_dedup _)
    refine hkeys.imp ?_
    intro g g' hne
    rw [List.disjoint_left]
    intro x hx hx'
    rw [List.mem_filter] at hx hx'
    exact hne (by
      have h1 := hx.2
      have h2 := hx'.2
      rw [beq_iff_eq] at h1 h2
      rw [← h1, ← h2])

/-- Each process is bound to `pool[i % |pool|]` where `i` is its index
within its group's member list. -/
theorem buildMapping_mem (pool : List ℕ) (procs : List String) (p : String)
    (hp : p ∈ procs) :
    (p, pool.getD
        ((procs.filter (fun x => groupKey x == groupKey p)).indexOf p % pool.length) 0)
      ∈ buildMapping pool procs := by
  set ms := procs.filter (fun x => groupKey x == groupKey p) with hms
  have hpm : p ∈ ms := by
    rw [hms, List.mem_filter]
    exact ⟨hp, by simp⟩
  have hidx : ms.indexOf p < ms.length := List.indexOf_lt_length.mpr hpm
  rw [buildMapping, List.mem_flatMap]
  refine ⟨ms, ?_, ?_⟩
  · rw [groupsOf, List.mem_map]
    refine ⟨groupKey p, ?_, rfl⟩
    have : groupKey p ∈ (procs.map groupKey).dedup :=
      List.mem_dedup.mpr (List.mem_map.mpr ⟨p, hp, rfl⟩)
    exact ((List.mergeSort_perm _ _).mem_iff).mpr this
  · rw [List.mem_map]
    refine ⟨(ms.indexOf p, p), ?_, rfl⟩
    rw [List.mem_enum_iff_getElem?]
    simp only
    rw [List.getElem?_eq_getElem hidx, List.getElem_indexOf]

/-- Claim C4.  For any duplicate-free process list, any two distinct
processes of the same group (same `groupKey`) whose group is no larger
than the physical pool are mapped to different hosts by the strided
mapping (`pool size = ceil(percent_usage * total_hosts)` clamped to at
least 1, with at least one physical host and a non-negative
`percent_usage`). -/
theorem map_processes_to_hosts_injective_on_group (total : ℕ) (percent : ℚ)
    (procs : List String) (hnd : procs.Nodup) (htot : 1 ≤ total)
    (hper : 0 ≤ percent) (p q : String) (hp : p ∈ procs) (hq : q ∈ procs)
    (hne : p ≠ q) (hg : groupKey p = groupKey q)
    (hsize : (procs.filter (fun x => groupKey x == groupKey p)).length
      ≤ (physicalPool total percent).length) :
    map_processes_to_hosts total percent procs p
      ≠ map_processes_to_hosts total percent procs q := by
  have hpooldef : physicalPool total percent
      = (List.range total).take
          ((if ⌈(total : ℚ) * percent⌉ = 0 then 1 else ⌈(total : ℚ) * percent⌉).toNat) := rfl
  have hpoolget : ∀ i, i < (physicalPool total percent).length →
      (physicalPool total percent).getD i 0 = i := by
    intro i hi
    have hi' : i < ((List.range total).take
        ((if ⌈(total : ℚ) * percent⌉ = 0 then 1 else ⌈(total : ℚ) * percent⌉).toNat)).length := by
      rw [← hpooldef]; exact hi
    have hstep : (physicalPool total percent).getD i 0
        = ((List.range total).take
            ((if ⌈(total : ℚ) * percent⌉ = 0 then 1
              else ⌈(total : ℚ) * percent⌉).toNat)).getD i 0 := by
      rw [hpooldef]
    rw [hstep, List.getD_eq_getElem _ 0 hi', List.getElem_take]
    exact List.getElem_range _ _
  set pool := physicalPool total percent with hpool
  set ms := procs.filter (fun x => groupKey x == groupKey p) with hms
  have hmsq : procs.filter (fun x => groupKey x == groupKey q) = ms := by
    rw [hms, hg]
  have hpm : p ∈ ms := by
    rw [hms, List.mem_filter]; exact ⟨hp, by simp⟩
  have hqm : q ∈ ms := by
    rw [hms, List.mem_filter]
    refine ⟨hq, ?_⟩
    rw [beq_iff_eq]
    exact hg.symm
  have hip : ms.indexOf p < ms.length := List.indexOf_lt_length.mpr hpm
  have hiq : ms.indexOf q < ms.length := List.indexOf_lt_length.mpr hqm
  have hijne : ms.indexOf p ≠ ms.indexOf q := by
    intro hcontra
    have h1 := List.getElem_indexOf hip
    have h2 := List.getElem_indexOf hiq
    have h3 : ms.get ⟨ms.indexOf p, hip⟩ = ms.get ⟨ms.indexOf q, hiq⟩ := by
      simp only [hcontra]
    rw [List.get_eq_getElem, List.get_eq_getElem, h1, h2] at h3
    exact hne h3
  have hmodp : ms.indexOf p % pool.length = ms.indexOf p :=
    Nat.mod_eq_of_lt (lt_of_lt_of_le hip hsize)
  have hmodq : ms.indexOf q % pool.length = ms.indexOf q :=
    Nat.mod_eq_of_lt (lt_of_lt_of_le hiq hsize)
  have hkeysnd := buildMapping_keys_nodup pool procs hnd
  have hrevnd : (((buildMapping pool procs).reverse).map Prod.fst).Nodup := by
    rw [List.map_reverse]
    exact List.nodup_reverse.mpr hkeysnd
  have hlookp : map_processes_to_hosts total percent procs p
      = some (pool.getD (ms.indexOf p % pool.length) 0) :=
    lookup_of_nodup_keys _ _ _ hrevnd
      (List.mem_reverse.mpr (buildMapping_mem pool procs p hp))
  have hlookq : map_processes_to_hosts total percent procs q
      = some (pool.getD (ms.indexOf q % pool.length) 0) := by
    have hmem := buildMapping_mem pool procs q hq
    rw [hmsq] at hmem
    exact lookup_of_nodup_keys _ _ _ hrevnd (List.mem_reverse.mpr hmem)
  rw [hlookp, hlookq, hmodp, hmodq,
    hpoolget _ (lt_of_lt_of_le hip hsize), hpoolget _ (lt_of_lt_of_le hiq hsize)]
  simp only [ne_eq, Option.some.injEq]
  exact hijne

/-- Witness for `map_processes_to_hosts_injective_on_group`: two
sub-nodes of the namespaced group `0-1` on a 4-host pool land on
different hosts. -/
theorem map_processes_to_hosts_injective_on_group_witness :
    map_processes_to_hosts 4 1 ["0-1.0", "0-1.1"] "0-1.0"
      ≠ map_processes_to_hosts 4 1 ["0-1.0", "0-1.1"] "0-1.1" := by
  have hpp : physicalPool 4 1 = [0, 1, 2, 3] := by
    have h4 : ⌈((4 : ℕ) : ℚ) * 1⌉ = (4 : ℤ) := by
      rw [mul_one, Int.ceil_natCast]
      norm_num
    show (List.range 4).take
        ((if ⌈((4 : ℕ) : ℚ) * 1⌉ = 0 then 1 else ⌈((4 : ℕ) : ℚ) * 1⌉).toNat) = [0, 1, 2, 3]
    rw [h4]
    decide
  apply map_processes_to_hosts_injective_on_group 4 1 ["0-1.0", "0-1.1"]
    (by decide) (by decide) (by norm_num) "0-1.0" "0-1.1"
    (by decide) (by decide) (by decide) (by decide)
  rw [hpp]
  decide

/-! ### Replayer: src/network/multi_llm.py, run_multi_trace_experiment -/

/-- One merged event as seen by the replay loop (`event.get('sender')`,
`event.get('receiver', [])`, `event.get('size', 1024)`). -/
structure ReplayEvent where
  sender : Option String
  receiver : List String
  size : Option ℚ
deriving DecidableEq

/-- Python `int()` truncation toward zero of a float. -/
def pyInt (q : ℚ) : ℤ := if q < 0 then ⌈q⌉ else ⌊q⌋

/-- What the replay loop did for one event: flows handed to `iperf3`
(sender host, receiver host, `-n` byte count) and the two counters. -/
structure ReplayOutcome where
  flows_started : ℕ
  flows_skipped : ℕ
  flows : List (ℕ × ℕ × ℤ)
deriving DecidableEq

/-- The per-event body of the replay loop of
`run_multi_trace_experiment`: `size_bytes = int(event.get('size',
1024))`, sizes below 1 are replaced by 1024 (the flow is still
launched); a missing or unplaced sender skips the whole event; each
receiver is skipped when unplaced or when it shares the sender's
physical host; every skip only increments `flows_skipped`. -/
def replay_event_step (host_map : String → Option ℕ) (e : ReplayEvent) :
    ReplayOutcome :=
  let size_bytes := pyInt (e.size.getD 1024)
  let size_bytes := if size_bytes < 1 then 1024 else size_bytes
  match e.sender.bind host_map with
  | none => ⟨0, 1, []⟩
  | some phys_sender =>
    e.receiver.foldl
      (fun acc rx =>
        match host_map rx with
        | none => { acc with flows_skipped := acc.flows_skipped + 1 }
        | some phys_rx =>
          if phys_sender = phys_rx then
            { acc with flows_skipped := acc.flows_skipped + 1 }
          else
            { acc with
              flows_started := acc.flows_started + 1
              flows := acc.flows ++ [(phys_sender, phys_rx, size_bytes)] })
      ⟨0, 0, []⟩

/-! ### Claim C7: replay skip policy -/

/-- Host map for the C7 theorems: two processes on two distinct hosts. -/
def c7Map : String → Option ℕ := fun s =>
  if s = "0-0.0" then some 0 else if s = "0-0.1" then some 1 else none

/-- Claim C7, counterexample.  An event with `size = 0 < 1` between two
placed processes on different hosts is NOT skipped: the size is replaced
by 1024 and the flow is launched (`flows_started = 1`,
`flows_skipped = 0`), contradicting the claim that `size < 1` is a skip
condition. -/
theorem replay_event_step_small_size_not_skipped :
    replay_event_step c7Map ⟨some "0-0.0", ["0-0.1"], some 0⟩
      = ⟨1, 0, [(0, 1, 1024)]⟩ := by
  have hz : pyInt 0 = 0 := by
    rw [pyInt, if_neg (lt_irrefl 0)]
    exact Int.floor_zero
  simp [replay_event_step, c7Map, Option.getD, hz]

/-- The `-n` byte count of a launched flow: `size_bytes =
int(event.get('size', 1024))`, with values below 1 replaced by 1024. -/
def replaySize (e : ReplayEvent) : ℤ :=
  let size_bytes := pyInt (e.size.getD 1024)
  if size_bytes < 1 then 1024 else size_bytes

/-- Unfolding of the receiver fold of `replay_event_step`. -/
theorem replay_fold_spec (host_map : String → Option ℕ) (hs : ℕ) (sb : ℤ) :
    ∀ (rxs : List String) (acc : ReplayOutcome),
      rxs.foldl
        (fun acc rx =>
          match host_map rx with
          | none => { acc with flows_skipped := acc.flows_skipped + 1 }
          | some phys_rx =>
            if hs = phys_rx then
              { acc with flows_skipped := acc.flows_skipped + 1 }
            else
              { acc with
                flows_started := acc.flows_started + 1
                flows := acc.flows ++ [(hs, phys_rx, sb)] }) acc
      = ⟨acc.flows_started + rxs.countP (fun rx =>
            match host_map rx with
            | some h => decide (¬ h = hs)
            | none => false),
         acc.flows_skipped + rxs.countP (fun rx =>
            match host_map rx with
            | some h => decide (h = hs)
            | none => true),
         acc.flows ++ rxs.filterMap (fun rx => (host_map rx).bind
            (fun h => if hs = h then none else some (hs, h, sb)))⟩ := by
  intro rxs
  induction rxs with
  | nil => intro acc; simp
  | cons rx rxs ih =>
    intro acc
    rw [List.foldl_cons, ih]
    rcases hrx : host_map rx with _ | h
    · simp only [List.countP_cons, List.filterMap_cons, hrx]
      simp
      omega
    · by_cases heq : hs = h
      · subst heq
        simp only [List.countP_cons, List.filterMap_cons, hrx]
        simp
        omega
      · simp only [List.countP_cons, List.filterMap_cons, hrx]
        rw [if_neg heq]
        simp only [Option.some_bind, if_neg heq]
        have h1 : (decide (¬ h = hs)) = true := by
          simp only [decide_eq_true_eq]
          exact fun hc => heq hc.symm
        have h2 : (decide (h = hs)) = false := by
          simp only [decide_eq_false_iff_not]
          exact fun hc => heq hc.symm
        rw [h1, h2]
        simp [List.append_assoc]
        omega

/-- Claim C7, amended.  The replay loop never aborts, and it skips
(counting, never failing) exactly when the sender is missing or
unplaced — one skip for the whole event — or, per receiver, when the
receiver is unplaced or shares the sender's physical host.  `size < 1`
is NOT a skip condition: `int(event.get('size', 1024))` below 1 is
replaced by 1024 and the flow is launched, so every launched flow
carries a positive byte count. -/
theorem replay_event_step_skip_policy (host_map : String → Option ℕ)
    (e : ReplayEvent) :
    (e.sender.bind host_map = none → replay_event_step host_map e = ⟨0, 1, []⟩) ∧
    (∀ hs, e.sender.bind host_map = some hs →
      replay_event_step host_map e =
        ⟨e.receiver.countP (fun rx =>
            match host_map rx with
            | some h => decide (¬ h = hs)
            | none => false),
          e.receiver.countP (fun rx =>
            match host_map rx with
            | some h => decide (h = hs)
            | none => true),
          e.receiver.filterMap (fun rx => (host_map rx).bind
            (fun h => if hs = h then none else some (hs, h, replaySize e)))⟩) ∧
    (∀ fl ∈ (replay_event_step host_map e).flows, 1 ≤ fl.2.2) := by
  have hsz : 1 ≤ (if pyInt (e.size.getD 1024) < 1 then 1024 else pyInt (e.size.getD 1024)) := by
    split
    · norm_num
    · omega
  refine ⟨?_, ?_, ?_⟩
  · intro hnone
    rw [replay_event_step, hnone]
  · intro hs hsome
    rw [replay_event_step, hsome]
    have h := replay_fold_spec host_map hs (replaySize e) e.receiver ⟨0, 0, []⟩
    simpa using h
  · intro fl hfl
    rcases hsend : e.sender.bind host_map with _ | hs
    · rw [replay_event_step, hsend] at hfl
      cases hfl
    · rw [replay_event_step, hsend] at hfl
      simp only at hfl
      rw [replay_fold_spec host_map hs
        (if pyInt (e.size.getD 1024) < 1 then 1024 else pyInt (e.size.getD 1024))
        e.receiver ⟨0, 0, []⟩] at hfl
      simp only [List.nil_append, List.mem_filterMap] at hfl
      obtain ⟨rx, _, hbind⟩ := hfl
      rcases hrx : host_map rx with _ | h
      · rw [hrx] at hbind
        cases hbind
      · rw [hrx] at hbind
        simp only [Option.some_bind] at hbind
        split at hbind
        · cases hbind
        · cases hbind
          exact hsz

/-- Witness for `replay_event_step_skip_policy`: a placed sender with one
placed receiver on a different host and one unplaced receiver starts one
flow (with the default 1024-byte size) and counts one skip. -/
theorem replay_event_step_skip_policy_witness :
    replay_event_step c7Map ⟨some "0-0.0", ["0-0.1", "zz"], none⟩
      = ⟨1, 1, [(0, 1, 1024)]⟩ := by
  have h := (replay_event_step_skip_policy c7Map
    ⟨some "0-0.0", ["0-0.1", "zz"], none⟩).2.1 0 (by simp [c7Map])
  rw [h]
  have hrs : replaySize ⟨some "0-0.0", ["0-0.1", "zz"], none⟩ = 1024 := by
    rw [replaySize]
    norm_num [pyInt]
  rw [hrs]
  decide

/-! ### VL2 topology builder: src/network/vl2.py, VL2Topo.__init__ -/

/-- The Mininet nodes and links accumulated by the constructor:
switches as `(name, dpid)`, hosts by name, links as name pairs in
`addLink` order. -/
structure TopoState where
  switches : List (String × ℕ)
  hosts : List String
  links : List (String × String)
deriving DecidableEq, Repr

/-- Embedding of `VL2Topo.__init__(D_A, D_I, ...)`.  The constructor
computes `num_inter = D_A // 2`, `num_aggr = D_I`, `num_tor = D_A * D_I
// 4`, `num_host = 20 * num_tor`, adds the three switch layers with
DPIDs `1000+i` / `2000+a` / `3000+t`, and then runs
`for t in range(num_tor): for h in range(20): host =
self._hosts[f'h...']` — but `self._hosts` is never assigned and the
class never calls `addHost`, so the first host-connect iteration raises
an uncaught `AttributeError` (modelled as `Except.error`); only the
degenerate `num_tor = 0` configurations reach the remaining link loops. -/
def vl2TopoInit (D_A D_I : ℕ) : Except String TopoState :=
  let num_inter := D_A / 2
  let num_aggr := D_I
  let num_tor := D_A * D_I / 4
  let inter := (List.range num_inter).map (fun i => ("i" ++ toString i, 1000 + i))
  let aggr := (List.range num_aggr).map (fun a => ("a" ++ toString a, 2000 + a))
  let tor := (List.range num_tor).map (fun t => ("t" ++ toString t, 3000 + t))
  if 0 < num_tor then
    Except.error "AttributeError: VL2Topo object has no attribute _hosts"
  else
    let torAggrLinks := (List.range (2 * num_tor)).map
      (fun t => ("t" ++ toString (t / 2), "a" ++ toString (t % num_aggr)))
    let aggrInterLinks := (List.range (D_A / 2 * num_aggr)).map
      (fun a => ("a" ++ toString (a / (D_A / 2)), "i" ++ toString (a % num_inter)))
    Except.ok ⟨inter ++ aggr ++ tor, [], torAggrLinks ++ aggrInterLinks⟩

/-! ### Claim C8: hosts per ToR -/

/-- Claim C8 concerns a code bug.  The claim (and the spec) say the
builder connects exactly 20 hosts to every ToR on ports 1..20; in the
source `self._hosts[...]` is read but never assigned and `addHost` is
never called, so for every configuration with at least one ToR —
including `VL2Topo(D_A=4, D_I=4)` built by `src/network/main.py` and
`VL2Topo(D_A=2, D_I=2)` in vl2.py's own `__main__` — the constructor
raises `AttributeError` before connecting any host.  This theorem
evaluates the embedded constructor at those inputs and shows the general
failure condition. -/
theorem vl2TopoInit_hosts_bug :
    vl2TopoInit 4 4 = Except.error "AttributeError: VL2Topo object has no attribute _hosts" ∧
    vl2TopoInit 2 2 = Except.error "AttributeError: VL2Topo object has no attribute _hosts" ∧
    (∀ D_A D_I : ℕ, 0 < D_A * D_I / 4 →
      vl2TopoInit D_A D_I
        = Except.error "AttributeError: VL2Topo object has no attribute _hosts") ∧
    (∀ D_A D_I st, vl2TopoInit D_A D_I = Except.ok st → st.hosts = []) := by
  refine ⟨rfl, rfl, ?_, ?_⟩
  · intro D_A D_I h
    rw [vl2TopoInit]
    simp only [if_pos h]
  · intro D_A D_I st hok
    rw [vl2TopoInit] at hok
    by_cases h : 0 < D_A * D_I / 4
    · simp only [if_pos h] at hok
      cases hok
    · simp only [if_neg h] at hok
      cases hok
      rfl

/-- Witness for `vl2TopoInit_hosts_bug` at `D_A = D_I = 8` (the class
defaults). -/
theorem vl2TopoInit_hosts_bug_witness :
    vl2TopoInit 8 8 = Except.error "AttributeError: VL2Topo object has no attribute _hosts" :=
  vl2TopoInit_hosts_bug.2.2.1 8 8 (by decide)

/-! ### Routing control plane: src/network/vl2_switch_queue.py (identical
routing code in vl2_switch.py) -/

/-- Switch roles distinguished by `classify_switch`. -/
inductive SwitchClass
  | INTERMEDIATE
  | AGGREGATE
  | TOR
  | UNKNOWN
deriving DecidableEq, Repr

/-- Embedding of `classify_switch(dpid)`: 1000–1999 intermediate,
2000–2999 aggregate, 3000–3999 ToR, otherwise unknown. -/
def classify_switch (dpid : ℕ) : SwitchClass :=
  if 1000 ≤ dpid ∧ dpid < 2000 then SwitchClass.INTERMEDIATE
  else if 2000 ≤ dpid ∧ dpid < 3000 then SwitchClass.AGGREGATE
  else if 3000 ≤ dpid ∧ dpid < 4000 then SwitchClass.TOR
  else SwitchClass.UNKNOWN

/-- The controller's learned `network_graph` (a `networkx.DiGraph`):
`nodes` are the DPIDs added on switch connect, `edges` the directed
links (learned host MACs are out of scope of the routed-path claims). -/
structure NetGraph where
  nodes : List ℕ
  edges : List (ℕ × ℕ)
deriving DecidableEq, Repr

/-- Successors of `u` in the directed graph. -/
def adjOf (g : NetGraph) (u : ℕ) : List ℕ :=
  (g.edges.filter (fun e => e.1 = u)).map (fun e => e.2)

/-- All graph nodes, counting edge endpoints (networkx creates nodes
implicitly when an edge is added). -/
def allNodes (g : NetGraph) : List ℕ :=
  (g.nodes ++ g.edges.flatMap (fun e => [e.1, e.2])).dedup

/-- `inter_switches`: the connected switches classified INTERMEDIATE. -/
def interSwitchesOf (g : NetGraph) : List ℕ :=
  g.nodes.filter (fun dpid => classify_switch dpid == SwitchClass.INTERMEDIATE)

/-- All walks with exactly `n` edges starting at `s` (as vertex lists,
including the start). -/
def walksFrom (g : NetGraph) (s : ℕ) : ℕ → List (List ℕ)
  | 0 => [[s]]
  | n + 1 => (adjOf g s).flatMap (fun v => (walksFrom g v n).map (fun p => s :: p))

/-- Breadth-first enumeration of `nx.all_shortest_paths`: try edge
counts `n, n+1, ...` until some walk ends at `d`, returning all walks of
that minimal length; `fuel` bounds the search (a shortest path visits
each node at most once, so `|allNodes|` rounds suffice). -/
def spAux (g : NetGraph) (s d : ℕ) : ℕ → ℕ → Option (List (List ℕ))
  | 0, _ => none
  | fuel + 1, n =>
    let ps := (walksFrom g s n).filter (fun p => p.getLast? = some d)
    if ps.isEmpty then spAux g s d fuel (n + 1) else some ps

/-- `list(nx.all_shortest_paths(graph, src, dst))`: `none` models the
`NetworkXNoPath`/`NodeNotFound` exceptions caught by `get_ecmp_path`. -/
def all_shortest_paths (g : NetGraph) (s d : ℕ) : Option (List (List ℕ)) :=
  if s ∈ allNodes g ∧ d ∈ allNodes g then spAux g s d (allNodes g).length 0
  else none

/-- Embedding of `get_ecmp_path`: one of the shortest paths, selected by
the random index `pick` (models `random.choice(paths)`); `none` on
disconnect. -/
def get_ecmp_path (g : NetGraph) (s d : ℕ) (pick : ℕ) : Option (List ℕ) :=
  match all_shortest_paths g s d with
  | none => none
  | some ps => ps.get? (pick % ps.length)

/-- Embedding of `get_random_intermediate_node`. -/
def get_random_intermediate_node (g : NetGraph) (pick : ℕ) : Option ℕ :=
  let l := interSwitchesOf g
  if l.isEmpty then none else l.get? (pick % l.length)

/-- Embedding of `get_vl2_path`: pick a random intermediate `I`, fall
back to the direct ECMP path when there is none (the Python test `if not
intermediate_node` is also true for a DPID equal to 0), otherwise
compose `ecmp(s, I)` with `ecmp(I, d)` dropping the duplicate `I`;
return `None` when either leg fails. -/
def get_vl2_path (g : NetGraph) (s d : ℕ) (pickI pickA pickB : ℕ) :
    Option (List ℕ) :=
  match get_random_intermediate_node g pickI with
  | none => get_ecmp_path g s d pickA
  | some inter =>
    if inter = 0 then get_ecmp_path g s d pickA
    else
      match get_ecmp_path g s inter pickA, get_ecmp_path g inter d pickB with
      | some path_a, some path_b => some (path_a.dropLast ++ path_b)
      | _, _ => none

/-! ### Claim C3: VLB fallback behaviour -/

/-- Graph for the C3 counterexample: an intermediate switch 1000 exists
but is disconnected; the direct edge 1 → 2 exists. -/
def c3Graph : NetGraph := ⟨[1, 2, 1000], [(1, 2)]⟩

/-- Claim C3, counterexample.  With a non-empty intermediate set whose
chosen leg fails (`ecmp(1, 1000)` has no path), `get_vl2_path` returns
`None` even though the direct `ecmp_path(1, 2)` exists — it does not fall
back to the direct path as the claim states. -/
theorem get_vl2_path_no_fallback_counterexample :
    get_vl2_path c3Graph 1 2 0 0 0 = none ∧
    get_ecmp_path c3Graph 1 2 0 = some [1, 2] := by decide

/-- Claim C3, amended.  `get_vl2_path` falls back to the direct
`ecmp_path(s, d)` only when no intermediate switch exists (or the Python
falsy test hits a DPID 0); when an intermediate `I ≠ 0` is chosen and
either leg `ecmp(s, I)` / `ecmp(I, d)` fails, it returns `None` rather
than the direct path. -/
theorem get_vl2_path_fallback (g : NetGraph) (s d pickI pickA pickB : ℕ) :
    (interSwitchesOf g = [] →
      get_vl2_path g s d pickI pickA pickB = get_ecmp_path g s d pickA) ∧
    (∀ inter, get_random_intermediate_node g pickI = some inter → inter ≠ 0 →
      (get_ecmp_path g s inter pickA = none ∨ get_ecmp_path g inter d pickB = none) →
      get_vl2_path g s d pickI pickA pickB = none) := by
  constructor
  · intro hempty
    rw [get_vl2_path, get_random_intermediate_node]
    simp [hempty]
  · intro inter hpick hne hfail
    rw [get_vl2_path, hpick]
    simp only [if_neg hne]
    rcases hfail with hfail | hfail
    · rw [hfail]
    · rw [hfail]
      rcases get_ecmp_path g s inter pickA with _ | pa <;> rfl

/-- Witness for `get_vl2_path_fallback` on `c3Graph`: intermediate 1000
is chosen, the leg to it fails, and the result is `None`. -/
theorem get_vl2_path_fallback_witness :
    get_vl2_path c3Graph 1 2 0 0 0 = none :=
  (get_vl2_path_fallback c3Graph 1 2 0 0 0).2 1000 (by decide) (by decide)
    (Or.inl (by decide))

/-! ### Claim C5: shortest-path walk machinery -/

/-- A walk in the controller graph from `a` to `d`, as its vertex list. -/
inductive IsWalk (g : NetGraph) : ℕ → ℕ → List ℕ → Prop
  | single (a : ℕ) : IsWalk g a a [a]
  | cons (a b d : ℕ) (rest : List ℕ) (hb : b ∈ adjOf g a)
      (hw : IsWalk g b d rest) : IsWalk g a d (a :: rest)

theorem IsWalk.ne_nil {g : NetGraph} {a d : ℕ} {p : List ℕ} (h : IsWalk g a d p) :
    p ≠ [] := by
  cases h <;> simp

theorem IsWalk.head {g : NetGraph} {a d : ℕ} {p : List ℕ} (h : IsWalk g a d p) :
    p.head? = some a := by
  cases h <;> rfl

theorem IsWalk.last {g : NetGraph} {a d : ℕ} {p : List ℕ} (h : IsWalk g a d p) :
    p.getLast? = some d := by
  induction h with
  | single a => rfl
  | cons a b d rest hb hw ih =>
    obtain ⟨x, xs, rfl⟩ : ∃ x xs, rest = x :: xs := by
      cases rest
      · exact absurd rfl hw.ne_nil
      · exact ⟨_, _, rfl⟩
    rw [List.getLast?_cons_cons]
    exact ih

/-- Soundness of the walk enumerator: members of `walksFrom g s n` are
walks from `s` with `n + 1` vertices. -/
theorem walksFrom_sound (g : NetGraph) :
    ∀ (n : ℕ) (s : ℕ) (p : List ℕ), p ∈ walksFrom g s n →
      p.length = n + 1 ∧ ∃ dw, IsWalk g s dw p := by
  intro n
  induction n with
  | zero =>
    intro s p hp
    rw [walksFrom, List.mem_singleton] at hp
    subst hp
    exact ⟨rfl, s, IsWalk.single s⟩
  | succ n ih =>
    intro s p hp
    rw [walksFrom, List.mem_flatMap] at hp
    obtain ⟨v, hv, hp⟩ := hp
    rw [List.mem_map] at hp
    obtain ⟨q, hq, rfl⟩ := hp
    obtain ⟨hlen, dw, hw⟩ := ih v q hq
    exact ⟨by simp [hlen], dw, IsWalk.cons s v dw q hv hw⟩

/-- Completeness of the walk enumerator. -/
theorem walksFrom_complete (g : NetGraph) {s d : ℕ} {p : List ℕ}
    (h : IsWalk g s d p) : p ∈ walksFrom g s (p.length - 1) := by
  induction h with
  | single a => simp [walksFrom]
  | cons a b d rest hb hw ih =>
    have hne := hw.ne_nil
    have hlen : (a :: rest).length - 1 = (rest.length - 1) + 1 := by
      cases rest
      · exact absurd rfl hne
      · simp
    rw [hlen, walksFrom, List.mem_flatMap]
    exact ⟨b, hb, List.mem_map.mpr ⟨rest, ih, rfl⟩⟩

/-- What a successful `spAux` search returns: the non-empty filtered
walk set at the first hitting length, with all smaller lengths empty. -/
theorem spAux_spec (g : NetGraph) (s d : ℕ) :
    ∀ (fuel n : ℕ) (ps : List (List ℕ)), spAux g s d fuel n = some ps →
      ∃ m, n ≤ m ∧
        ps = (walksFrom g s m).filter (fun p => p.getLast? = some d) ∧
        ps ≠ [] ∧
        ∀ k, n ≤ k → k < m →
          (walksFrom g s k).filter (fun p => p.getLast? = some d) = [] := by
  intro fuel
  induction fuel with
  | zero => intro n ps h; cases h
  | succ fuel ih =>
    intro n ps h
    rw [spAux] at h
    by_cases hemp : ((walksFrom g s n).filter (fun p => p.getLast? = some d)).isEmpty
    · rw [if_pos hemp] at h
      obtain ⟨m, hnm, hps, hne, hsmall⟩ := ih (n + 1) ps h
      refine ⟨m, by omega, hps, hne, ?_⟩
      intro k hk1 hk2
      rcases Nat.eq_or_lt_of_le hk1 with rfl | hlt
      · exact List.isEmpty_iff.mp hemp
      · exact hsmall k hlt hk2
    · rw [if_neg hemp] at h
      cases h
      refine ⟨n, le_refl n, rfl, fun hc => hemp (by rw [hc]; rfl), ?_⟩
      intro k hk1 hk2
      omega

/-- Minimality: a member of a successful `all_shortest_paths` result is a
walk from `s` to `d` of minimal length among all such walks. -/
theorem all_shortest_paths_spec (g : NetGraph) (s d : ℕ) (ps : List (List ℕ))
    (hps : all_shortest_paths g s d = some ps) (p : List ℕ) (hp : p ∈ ps) :
    IsWalk g s d p ∧ ∀ q, IsWalk g s d q → p.length ≤ q.length := by
  rw [all_shortest_paths] at hps
  split at hps
  case isFalse => cases hps
  case isTrue hmem =>
    obtain ⟨m, hm0, hpsval, hne, hsmall⟩ := spAux_spec g s d (allNodes g).length 0 ps hps
    rw [hpsval, List.mem_filter] at hp
    obtain ⟨hpwalk, hplast⟩ := hp
    rw [decide_eq_true_eq] at hplast
    obtain ⟨hlen, dw, hw⟩ := walksFrom_sound g m s p hpwalk
    have hdd : dw = d := by
      have h1 := hw.last
      rw [h1] at hplast
      exact Option.some.inj hplast
    rw [hdd] at hw
    refine ⟨hw, ?_⟩
    intro q hq
    by_contra hqlt
    push_neg at hqlt
    have hq1 : 1 ≤ q.length := by
      cases hql : q with
      | nil => exact absurd hql hq.ne_nil
      | cons x xs => simp
    have hqlen : q.length - 1 < m := by omega
    have hqmem : q ∈ walksFrom g s (q.length - 1) := walksFrom_complete g hq
    have hempty := hsmall (q.length - 1) (Nat.zero_le _) hqlen
    have hqfil : q ∈ (walksFrom g s (q.length - 1)).filter
        (fun r => r.getLast? = some d) := by
      rw [List.mem_filter]
      refine ⟨hqmem, ?_⟩
      rw [hq.last]
      simp
    rw [hempty] at hqfil
    cases hqfil

/-- A vertex occurring after the head of a walk starts a strictly
shorter walk to the same destination (cut the walk at that occurrence). -/
theorem IsWalk.shorter_from_tail {g : NetGraph} {a d : ℕ} {p : List ℕ}
    (h : IsWalk g a d p) : ∀ x ∈ p.tail, ∃ q, IsWalk g x d q ∧ q.length < p.length := by
  induction h with
  | single a => intro x hx; cases hx
  | cons a b d rest hb hw ih =>
    intro x hx
    rw [List.tail_cons] at hx
    obtain ⟨y, ys, rfl⟩ : ∃ y ys, rest = y :: ys := by
      cases rest
      · exact absurd rfl hw.ne_nil
      · exact ⟨_, _, rfl⟩
    have hhead : y = b := by
      have := hw.head
      simpa using this
    subst hhead
    rcases List.mem_cons.mp hx with rfl | hx'
    · exact ⟨x :: ys, hw, by simp⟩
    · obtain ⟨q, hq, hqlen⟩ := ih x hx'
      exact ⟨q, hq, by simp at hqlen ⊢; omega⟩

/-- A vertex occurring before the end of a walk is reached by a strictly
shorter walk from the same source. -/
theorem IsWalk.shorter_to_dropLast {g : NetGraph} {a d : ℕ} {p : List ℕ}
    (h : IsWalk g a d p) : ∀ x ∈ p.dropLast,
      ∃ q, IsWalk g a x q ∧ q.length < p.length := by
  induction h with
  | single a => intro x hx; cases hx
  | cons a b d rest hb hw ih =>
    intro x hx
    obtain ⟨y, ys, rfl⟩ : ∃ y ys, rest = y :: ys := by
      cases rest
      · exact absurd rfl hw.ne_nil
      · exact ⟨_, _, rfl⟩
    rw [List.dropLast_cons₂] at hx
    rcases List.mem_cons.mp hx with rfl | hx'
    · exact ⟨[x], IsWalk.single x, by simp⟩
    · obtain ⟨q, hq, hqlen⟩ := ih x hx'
      exact ⟨a :: q, IsWalk.cons a b x q hb hq, by simp at hqlen ⊢; omega⟩

/-- In a minimal-length walk from `s` to `d`, the destination never
occurs before the final position. -/
theorem minimal_walk_no_early_last (g : NetGraph) {s d : ℕ} {p : List ℕ}
    (hw : IsWalk g s d p) (hmin : ∀ q, IsWalk g s d q → p.length ≤ q.length) :
    d ∉ p.dropLast := by
  intro hd
  obtain ⟨q, hq, hqlen⟩ := hw.shorter_to_dropLast d hd
  exact absurd (hmin q hq) (by omega)

/-- In a minimal-length walk from `s` to `d`, the source never occurs
after the head position. -/
theorem minimal_walk_no_late_head (g : NetGraph) {s d : ℕ} {p : List ℕ}
    (hw : IsWalk g s d p) (hmin : ∀ q, IsWalk g s d q → p.length ≤ q.length) :
    s ∉ p.tail := by
  intro hs
  obtain ⟨q, hq, hqlen⟩ := hw.shorter_from_tail s hs
  exact absurd (hmin q hq) (by omega)

/-- A successful `get_ecmp_path` result is one of the enumerated
shortest paths. -/
theorem get_ecmp_path_mem (g : NetGraph) (s d pick : ℕ) (pa : List ℕ)
    (h : get_ecmp_path g s d pick = some pa) :
    ∃ ps, all_shortest_paths g s d = some ps ∧ pa ∈ ps := by
  rw [get_ecmp_path] at h
  rcases hasp : all_shortest_paths g s d with _ | ps
  · rw [hasp] at h
    cases h
  · rw [hasp] at h
    exact ⟨ps, rfl, List.get?_mem h⟩

/-- A successful `get_random_intermediate_node` result is a member of
the intermediate set. -/
theorem get_random_intermediate_node_mem (g : NetGraph) (pick inter : ℕ)
    (h : get_random_intermediate_node g pick = some inter) :
    inter ∈ interSwitchesOf g := by
  rw [get_random_intermediate_node] at h
  split at h
  · cases h
  · exact List.get?_mem h

/-- Members of the intermediate set carry DPIDs in 1000–1999. -/
theorem interSwitchesOf_range (g : NetGraph) (inter : ℕ)
    (h : inter ∈ interSwitchesOf g) : 1000 ≤ inter ∧ inter < 2000 := by
  rw [interSwitchesOf, List.mem_filter] at h
  have hcls := h.2
  rw [beq_iff_eq, classify_switch] at hcls
  split_ifs at hcls with h1 h2 h3
  exact h1

/-- Claim C5.  Whenever the intermediate set is non-empty and
`get_vl2_path` returns a path, the chosen intermediate switch — a DPID
in 1000–1999 — occurs in the returned path exactly once, although it
ends the first leg and starts the second. -/
theorem get_vl2_path_contains_intermediate (g : NetGraph)
    (s d pickI pickA pickB : ℕ) (p : List ℕ)
    (hne : interSwitchesOf g ≠ [])
    (hp : get_vl2_path g s d pickI pickA pickB = some p) :
    ∃ inter, inter ∈ interSwitchesOf g ∧ 1000 ≤ inter ∧ inter < 2000 ∧
      p.count inter = 1 := by
  rcases hrand : get_random_intermediate_node g pickI with _ | inter
  · exfalso
    rw [get_random_intermediate_node,
      if_neg (by simpa [List.isEmpty_iff] using hne)] at hrand
    have hlen : 0 < (interSwitchesOf g).length := List.length_pos.mpr hne
    rw [List.get?_eq_none] at hrand
    exact absurd hrand (Nat.not_le.mpr (Nat.mod_lt _ hlen))
  · have hmem := get_random_intermediate_node_mem g pickI inter hrand
    obtain ⟨h1000, h2000⟩ := interSwitchesOf_range g inter hmem
    have hnz : inter ≠ 0 := by omega
    rw [get_vl2_path, hrand] at hp
    simp only [if_neg hnz] at hp
    rcases hA : get_ecmp_path g s inter pickA with _ | pa
    · rw [hA] at hp
      cases hp
    · rcases hB : get_ecmp_path g inter d pickB with _ | pb
      · rw [hA, hB] at hp
        cases hp
      · rw [hA, hB] at hp
        cases hp
        obtain ⟨psa, hpsa, hpamem⟩ := get_ecmp_path_mem g s inter pickA pa hA
        obtain ⟨psb, hpsb, hpbmem⟩ := get_ecmp_path_mem g inter d pickB pb hB
        obtain ⟨hwa, hmina⟩ := all_shortest_paths_spec g s inter psa hpsa pa hpamem
        obtain ⟨hwb, hminb⟩ := all_shortest_paths_spec g inter d psb hpsb pb hpbmem
        refine ⟨inter, hmem, h1000, h2000, ?_⟩
        rw [List.count_append]
        have hcount_a : pa.dropLast.count inter = 0 :=
          List.count_eq_zero.mpr (minimal_walk_no_early_last g hwa hmina)
        have hcount_b : pb.count inter = 1 := by
          obtain ⟨y, ys, rfl⟩ : ∃ y ys, pb = y :: ys := by
            cases pb
            · exact absurd rfl hwb.ne_nil
            · exact ⟨_, _, rfl⟩
          have hy : y = inter := by
            have := hwb.head
            simpa using this
          have htail : inter ∉ ys := by
            have := minimal_walk_no_late_head g hwb hminb
            simpa using this
          rw [hy, List.count_cons_self, List.count_eq_zero.mpr htail]
        rw [hcount_a, hcount_b]

/-- Graph for the C5 witness: ToRs 3000/3001, aggregate 2000,
intermediate 1000, VL2-style up/down links. -/
def c5Graph : NetGraph :=
  ⟨[3000, 3001, 2000, 1000],
   [(3000, 2000), (2000, 1000), (1000, 2000), (2000, 3001), (3001, 2000), (2000, 3000)]⟩

/-- Witness for `get_vl2_path_contains_intermediate` on `c5Graph`: the
two-leg VLB path from ToR 3000 to ToR 3001 passes the intermediate
switch 1000 exactly once. -/
theorem get_vl2_path_contains_intermediate_witness :
    ∃ inter, inter ∈ interSwitchesOf c5Graph ∧ 1000 ≤ inter ∧ inter < 2000 ∧
      ([3000, 2000, 1000, 2000, 3001] : List ℕ).count inter = 1 :=
  get_vl2_path_contains_intermediate c5Graph 3000 3001 0 0 0
    [3000, 2000, 1000, 2000, 3001] (by decide) (by decide)
